import Mathlib

/-!
Verification of focus-dt, an interactive terminal tool for triaging
DefinitelyTyped pull requests.  This file gives a shallow embedding of the
core data model and operations of the tool and proves (or refutes) the
specified properties about them.

Conventions used throughout the embedding:
* ISO-8601 timestamp strings (`submitted_at`, commit dates, skip timestamps)
  are modelled as natural numbers (milliseconds since the UNIX epoch); for
  well-formed timestamps the source's lexicographic string comparison agrees
  with numeric comparison.
* JavaScript `undefined` / missing fields are modelled with `Option`.
* JavaScript numbers used as counters are modelled as `Int` so that a
  decrement below zero would be observable.
* Reviewer identities (`user.login` / `user.id`) are modelled as a single
  `Nat` identity.
-/

namespace FocusDT

/-- Tri-state approval value: `false`, `true` or the string `"outdated"`
(see `approvedByMe` / `approvedByOwners` / `approvedByMaintainer` on `Pull`
in `src/github.ts`). -/
inductive Tri where
| no
| yes
| outdated
deriving DecidableEq, Repr

/-- Review state retained by `ProjectService.isReview`: only `APPROVED`
and `CHANGES_REQUESTED` reviews are kept. -/
inductive RState where
| approved
| changes_requested
deriving DecidableEq, Repr

/-- A pull-request review (interface `Review` in `src/github.ts`): reviewer
identity, state, submission timestamp, and the `isOutdated` flag which the
source leaves `undefined` (falsy) until `listReviews` annotates it. -/
structure Review where
user : Nat
state : RState
submitted_at : Nat
isOutdated : Bool := false
deriving DecidableEq, Repr

/-- Lookup in the insertion-ordered `lastReviewStates` map of
`ProjectService.latestReviews` (a JS `Map` keyed by reviewer login),
returning the position and the stored review. -/
def findUser : List Review → Nat → Option (Nat × Review)
| [], _ => none
| r :: rest, u =>
  if r.user = u then some (0, r)
  else (findUser rest u).map fun p => (p.1 + 1, p.2)

/-- One step of the `lastReviewStates` map update in
`ProjectService.latestReviews`: group by reviewer, keeping the review with
the strictly larger submission timestamp (a JS `Map` keeps insertion order
of keys, and `set` on an existing key keeps its position). -/
def latestStep (acc : List Review) (review : Review) : List Review :=
  match findUser acc review.user with
  | none => acc ++ [review]
  | some (i, lastReview) =>
    if lastReview.submitted_at < review.submitted_at then acc.set i review else acc

/-- `ProjectService.latestReviews` of `src/github.ts`: reduce to the latest
review per reviewer, then sort ascending by submission timestamp (the JS
comparator `a < b ? -1 : a > b ? 1 : 0` with a stable sort). An empty result
(`null` in the source) is modelled as `[]`. -/
def latestReviews (reviews : List Review) : List Review :=
  (reviews.foldl latestStep []).mergeSort (fun a b => a.submitted_at ≤ b.submitted_at)

/-- The `isOutdated` annotation performed by `ProjectService.listReviews`
when called with a `lastCommit`: a review is outdated when it was submitted
before the latest commit. -/
def annotateOutdated (lastCommitAt : Nat) (review : Review) : Review :=
  { review with isOutdated := review.submitted_at < lastCommitAt }

/-- `ProjectService.pickMostRelevantReview` of `src/github.ts`:
CHANGES_REQUESTED trumps APPROVED unless the CHANGES_REQUESTED is outdated
and the APPROVED is not; between equal states the later submission wins
(ties go to `right`).  The source's reference-equality check `left === right`
is modelled by structural equality, which yields the same results. -/
def pickMostRelevantReview (left : Option Review) (right : Review) : Review :=
  match left with
  | none => right
  | some l =>
    if l = right then right
    else if l.state ≠ right.state then
      if l.state = RState.changes_requested then
        if !l.isOutdated || right.isOutdated then l else right
      else
        if !right.isOutdated || l.isOutdated then right else l
    else
      if l.submitted_at > right.submitted_at then l else right

/-- The my-review part of `ProjectService.updatePullStatus` composed with
`getMyReviewCore`: find the authenticated user's entry among the latest
reviews. -/
def getMyReview (me : Nat) (reviews : List Review) : Option Review :=
  (latestReviews reviews).find? (fun r => r.user = me)

/-- `pull.approvedByMe` as computed by `ProjectService.getPull`: the raw
reviews are reduced by `listReviews { latest: true, lastCommit }` (latest
per reviewer plus the `isOutdated` annotation) and then fed to
`updatePullStatus`, which re-reduces and looks up the operator's review. -/
def approvedByMeOf (me lastCommitAt : Nat) (reviews : List Review) : Tri :=
  match getMyReview me ((latestReviews reviews).map (annotateOutdated lastCommitAt)) with
  | none => Tri.no
  | some r =>
    if r.state = RState.approved then
      if r.isOutdated then Tri.outdated else Tri.yes
    else Tri.no

/-- The remote state a `ProjectService` instance talks to, as far as
`approvePull` observes it: the pull's reviews, its latest commit timestamp,
and whether the re-fetch (`getPull`) or the draft-review creation
(`createReview`) fails. -/
structure Remote where
reviews : List Review
lastCommitAt : Nat
fetchFails : Bool
draftFails : Bool
deriving DecidableEq, Repr

/-- `ProjectService.approvePull` of `src/github.ts`: re-fetch the pull;
bail out on a fetch error; bail out if the refreshed pull already shows a
current (non-outdated) approval by the operator; otherwise create a draft
review (bailing out if that fails) and submit it with event `APPROVE`.
Returns the new remote state and the number of approving reviews
submitted. -/
def approvePull (me now : Nat) (r : Remote) : Remote × Nat :=
  if r.fetchFails then (r, 0)
  else if approvedByMeOf me r.lastCommitAt r.reviews = Tri.yes then (r, 0)
  else if r.draftFails then (r, 0)
  else ({ r with reviews := r.reviews ++ [⟨me, RState.approved, now, false⟩] }, 1)

/-- Approval mode (`src/settings.ts`): `manual`, `auto` or `always`. -/
inductive ApprovalMode where
| manual
| auto
| always
deriving DecidableEq, Repr

/-- The `needsApproval` computation of the merge option action in
`createRunDownPrompt` (`src/prompts/runDown.ts`):
`auto` requires approval when owner approval and maintainer approval are
not both current; `always` when the operator's approval and maintainer
approval are not both current; `manual` never. -/
def mergeNeedsApproval (approve : ApprovalMode) (approvedByOwners approvedByMe approvedByMaintainer : Tri) : Bool :=
  match approve with
  | ApprovalMode.auto => decide (approvedByOwners ≠ Tri.yes) || decide (approvedByMaintainer ≠ Tri.yes)
  | ApprovalMode.always => decide (approvedByMe ≠ Tri.yes) || decide (approvedByMaintainer ≠ Tri.yes)
  | ApprovalMode.manual => false

/-- The merge option action composed with `approvePull`: when
`needsApproval` holds the action calls `service.approvePull`, which itself
submits a review only if the (freshly fetched) pull does not already show a
current operator approval.  This predicate says whether an approving review
is actually submitted, assuming both fetches succeed and observe the same
snapshot. -/
def mergeActionSubmitsApproval (approve : ApprovalMode) (approvedByOwners approvedByMe approvedByMaintainer : Tri) : Bool :=
  mergeNeedsApproval approve approvedByOwners approvedByMe approvedByMaintainer
    && decide (approvedByMe ≠ Tri.yes)

/-- `CardRunDownState` of `src/context.ts`: a work item identified by its
card id plus the in-session triage flags. -/
structure CardState where
card : Nat
completed : Bool := false
skipped : Bool := false
deferred : Bool := false
deriving DecidableEq, Repr

/-- `ColumnRunDownState` of `src/context.ts`: the per-column queue with its
offset cursor, sort-order flag, counters and refresh flag.  Counters are
`Int`, matching JS numbers, so that going negative would be observable. -/
structure ColumnState where
cards : List CardState
offset : Nat
oldestFirst : Bool
completedCount : Int
skippedCount : Int
deferredCount : Int
refresh : Bool := false
deriving DecidableEq, Repr

/-- The fresh `newState` built at the top of `populateState`
(`src/index.ts`): one card per fetched id, offset 0, zero counters. -/
def populateFresh (fetched : List Nat) (oldest : Bool) : ColumnState :=
  { cards := fetched.map fun id => { card := id }
    offset := 0
    oldestFirst := oldest
    completedCount := 0
    skippedCount := 0
    deferredCount := 0 }

/-- `previousState.cards.findIndex(prevCard => prevCard.card.id === newCard.card.id)`
together with the subsequent element access, returning the index and the
matching previous card. -/
def findPrevCard : List CardState → Nat → Option (Nat × CardState)
| [], _ => none
| c :: rest, id =>
  if c.card = id then some (0, c)
  else (findPrevCard rest id).map fun p => (p.1 + 1, p.2)

/-- Accumulator for the repopulation partition loop in `populateState`. -/
structure RepopAcc where
deferredCards : List CardState
previouslySeenCards : List CardState
otherCards : List CardState
skippedCount : Int
deferredCount : Int
deriving Repr

/-- One iteration of the `for (const newCard of newState.cards)` loop in
`populateState` (`src/index.ts`, refresh path): a fetched card found in the
previous queue is routed to the deferred tail, the previously seen front, or
the middle, copying its `deferred`/`skipped` flag and counting it; a fetched
card not found in the previous queue is routed nowhere. -/
def repopStep (prev : ColumnState) (acc : RepopAcc) (newCard : CardState) : RepopAcc :=
  match findPrevCard prev.cards newCard.card with
  | none => acc
  | some (prevCardIndex, prevCard) =>
    if prevCard.deferred then
      { acc with
        deferredCards := acc.deferredCards ++ [{ newCard with deferred := true }]
        deferredCount := acc.deferredCount + 1 }
    else
      let newCard := if prevCard.skipped then { newCard with skipped := true } else newCard
      let acc := if prevCard.skipped then { acc with skippedCount := acc.skippedCount + 1 } else acc
      if prevCardIndex ≤ prev.offset then
        { acc with previouslySeenCards := acc.previouslySeenCards ++ [newCard] }
      else
        { acc with otherCards := acc.otherCards ++ [newCard] }

/-- The refresh path of `populateState`: partition the freshly fetched
cards against the previous queue and rebuild the queue as
previously-seen ++ other ++ deferred, with the offset pointing past the
previously-seen block. -/
def repopulateFrom (prev : ColumnState) (newState : ColumnState) : ColumnState :=
  let acc := newState.cards.foldl (repopStep prev) ⟨[], [], [], 0, 0⟩
  { newState with
    cards := acc.previouslySeenCards ++ acc.otherCards ++ acc.deferredCards
    offset := acc.previouslySeenCards.length
    skippedCount := acc.skippedCount
    deferredCount := acc.deferredCount }

/-- `populateState` of `src/index.ts`: build the fresh state from the
fetched cards and, when the previous state requested a refresh, rebuild the
queue preserving session progress. -/
def populateState (fetched : List Nat) (oldest : Bool) (previous : Option ColumnState) : ColumnState :=
  let newState := populateFresh fetched oldest
  match previous with
  | some prev => if prev.refresh then repopulateFrom prev newState else newState
  | none => newState

/-- `nextCard` of `src/index.ts`: when the offset is in range, hand out the
card at the offset with its `deferred`/`skipped` flag cleared (the source
mutates the card object in place, so the queue entry is cleared as well),
decrement the matching counters, and advance the offset; otherwise return
nothing and leave the state unchanged. -/
def nextCard (column : ColumnState) : Option CardState × ColumnState :=
  if h : column.offset < column.cards.length then
    let card := column.cards.get ⟨column.offset, h⟩
    let cleared := { card with deferred := false, skipped := false }
    (some cleared,
      { column with
        cards := column.cards.set column.offset cleared
        offset := column.offset + 1
        deferredCount := if card.deferred then column.deferredCount - 1 else column.deferredCount
        skippedCount := if card.skipped then column.skippedCount - 1 else column.skippedCount })
  else (none, column)

/-- The defer option action of `createRunDownPrompt`
(`src/prompts/runDown.ts`): when the offset is strictly inside the queue and
the card just handed out is still the one before the offset (`isCurrentCard`
models the `cards[offset-1] === workArea.card` identity check), step the
offset back and move that card to the tail; otherwise do nothing. -/
def deferStep (column : ColumnState) (isCurrentCard : Bool) : ColumnState :=
  if 0 < column.offset ∧ column.offset < column.cards.length ∧ isCurrentCard then
    let i := column.offset - 1
    { column with
      offset := i
      cards := column.cards.eraseIdx i ++ (column.cards[i]?).toList }
  else column

/-- Specification-side description of the front block produced by a
refresh repopulation: the fetched ids that were present in the previous
queue, not deferred there, and whose previous index is at most the previous
offset, in fetched order, with the previous `skipped` flag copied. -/
def seenOf (prev : ColumnState) : List Nat → List CardState
| [] => []
| id :: rest =>
  match findPrevCard prev.cards id with
  | some (i, p) =>
    if !p.deferred && decide (i ≤ prev.offset) then
      { card := id, skipped := p.skipped } :: seenOf prev rest
    else seenOf prev rest
  | none => seenOf prev rest

/-- Specification-side description of the middle block produced by a
refresh repopulation: the fetched ids present in the previous queue, not
deferred there, with previous index beyond the previous offset, in fetched
order, with the previous `skipped` flag copied. -/
def otherOf (prev : ColumnState) : List Nat → List CardState
| [] => []
| id :: rest =>
  match findPrevCard prev.cards id with
  | some (i, p) =>
    if !p.deferred && decide (prev.offset < i) then
      { card := id, skipped := p.skipped } :: otherOf prev rest
    else otherOf prev rest
  | none => otherOf prev rest

/-- Specification-side description of the tail block produced by a refresh
repopulation: the fetched ids that were deferred in the previous queue, in
fetched order, with the `deferred` flag set. -/
def deferredOf (prev : ColumnState) : List Nat → List CardState
| [] => []
| id :: rest =>
  match findPrevCard prev.cards id with
  | some (_, p) =>
    if p.deferred then { card := id, deferred := true } :: deferredOf prev rest
    else deferredOf prev rest
  | none => deferredOf prev rest

/-- Column-queue states reachable through `populateState` (fresh or
refresh), `nextCard` and the defer action. -/
inductive Reachable : ColumnState → Prop where
| populate (fetched : List Nat) (oldest : Bool) :
    Reachable (populateState fetched oldest none)
| repopulate (fetched : List Nat) (oldest : Bool) (s : ColumnState) :
    Reachable s → Reachable (populateState fetched oldest (some s))
| next (s : ColumnState) : Reachable s → Reachable (nextCard s).2
| defer (s : ColumnState) (isCurrentCard : Bool) : Reachable s → Reachable (deferStep s isCurrentCard)

/-- The queue invariant of the spec: the offset stays within the queue and
each counter equals the number of cards carrying the matching flag (being a
count, each is in particular non-negative). -/
def QueueInv (s : ColumnState) : Prop :=
  s.offset ≤ s.cards.length
  ∧ s.skippedCount = (s.cards.countP (fun c => c.skipped) : Int)
  ∧ s.deferredCount = (s.cards.countP (fun c => c.deferred) : Int)

/-- `MAX_EXCLUDE_TIMEOUT` of `src/github.ts`: check back at least once
every 7 days (milliseconds). -/
def MAX_EXCLUDE_TIMEOUT : Nat := 1000 * 60 * 60 * 24 * 7

/-- `ProjectService.shouldSkip` of `src/github.ts`.  `entry` is
`exclude?.get(pull.number)`; the source's falsiness test
`if (!excludeTimestamp) return false` covers both a missing entry and a
zero timestamp.  `lastUpdate` is `pull.lastUpdatedAt || pull.updated_at`;
the ISO-string comparison `lastUpdate < skipUntil` is modelled numerically
(lexicographic order on well-formed ISO-8601 strings agrees with
chronological order). -/
def shouldSkip (now : Nat) (entry : Option Nat) (lastUpdate : Nat) : Bool :=
  match entry with
  | none => false
  | some excludeTimestamp =>
    if excludeTimestamp = 0 then false
    else if now ≥ excludeTimestamp + MAX_EXCLUDE_TIMEOUT then false
    else decide (lastUpdate < excludeTimestamp)

/-- Merge strategy (`src/settings.ts`). -/
inductive MergeMode where
| merge
| squash
| rebase
deriving DecidableEq, Repr

/-- The `port` setting: a concrete port number or the string `"random"`. -/
inductive PortSetting where
| num (n : Nat)
| random
deriving DecidableEq, Repr

/-- The `Settings` interface of `src/settings.ts`. -/
structure Settings where
needsReview : Bool
needsAction : Bool
oldest : Bool
draft : Bool
wip : Bool
skipped : Bool
port : PortSetting
timeout : Nat
merge : Option MergeMode
approve : ApprovalMode
chromePath : Option String
chromeProfile : Option String
chromeUserDataDir : Option String
username : Option String
deriving DecidableEq, Repr

/-- The JSON object written by `saveSettings`: `none` models a field that
is `undefined` and therefore omitted by `JSON.stringify`. -/
structure SavedSettings where
needsReview : Option Bool
needsAction : Option Bool
oldest : Option Bool
draft : Option Bool
wip : Option Bool
skipped : Option Bool
port : Option PortSetting
timeout : Option Nat
merge : Option MergeMode
approve : Option ApprovalMode
chromePath : Option String
chromeProfile : Option String
chromeUserDataDir : Option String
username : Option String
deriving DecidableEq, Repr

/-- `saveSettings` of `src/settings.ts`: copy the settings, blank out the
fields the source resets to `undefined` (both column filters when both are
set, false booleans, the `manual` approval mode, the default port and
timeout, empty chrome path fields), and write the rest. -/
def saveSettings (s : Settings) : SavedSettings :=
  { needsReview := if s.needsAction && s.needsReview then none else some s.needsReview
    needsAction := if s.needsAction && s.needsReview then none else some s.needsAction
    oldest := if s.oldest = false then none else some s.oldest
    draft := if s.draft = false then none else some s.draft
    wip := if s.wip = false then none else some s.wip
    skipped := if s.skipped = false then none else some s.skipped
    port := if s.port = PortSetting.num 9222 then none else some s.port
    timeout := if s.timeout = 10000 then none else some s.timeout
    merge := s.merge
    approve := if s.approve = ApprovalMode.manual then none else some s.approve
    chromePath := if s.chromePath = some "" then none else s.chromePath
    chromeProfile := if s.chromeProfile = some "" then none else s.chromeProfile
    chromeUserDataDir := if s.chromeUserDataDir = some "" then none else s.chromeUserDataDir
    username := s.username }

/-- `getDefaultSettings` of `src/settings.ts`. -/
def getDefaultSettings : Settings :=
  { needsReview := false
    needsAction := false
    oldest := false
    draft := false
    wip := false
    skipped := false
    port := PortSetting.num 9222
    timeout := 10000
    merge := none
    approve := ApprovalMode.manual
    chromePath := none
    chromeProfile := none
    chromeUserDataDir := none
    username := none }

/-- `readSettings` of `src/settings.ts`: spread the parsed JSON over the
defaults, each present field overriding the default.  (The source also maps
a legacy `approve: "only"` to `manual`; that value is not producible by
`saveSettings` and is outside the `ApprovalMode` type.) -/
def readSettings (j : SavedSettings) : Settings :=
  { needsReview := j.needsReview.getD false
    needsAction := j.needsAction.getD false
    oldest := j.oldest.getD false
    draft := j.draft.getD false
    wip := j.wip.getD false
    skipped := j.skipped.getD false
    port := j.port.getD (PortSetting.num 9222)
    timeout := j.timeout.getD 10000
    merge := j.merge
    approve := j.approve.getD ApprovalMode.manual
    chromePath := j.chromePath
    chromeProfile := j.chromeProfile
    chromeUserDataDir := j.chromeUserDataDir
    username := j.username }

/-- The kind of work an option action performs when invoked:
a synchronous action (falsy return, completes inside the keypress handler)
or an asynchronous one (returns a promise; the latch is released in its
`then` callback). -/
inductive ActionKind where
| sync
| async
deriving DecidableEq, Repr

/-- The latch-relevant state of the active prompt in `src/prompt.ts`:
whether it is visible, the `keypressBlocked` latch, and how many option
actions are currently in flight (started but not yet completed). -/
structure PromptLatchState where
visible : Bool
keypressBlocked : Bool
running : Nat
deriving DecidableEq, Repr

/-- An event-loop event observed by the prompt controller: a keypress, or
the completion of the in-flight action's asynchronous work (the `then`
callback installed by `onKeypress`). -/
inductive PromptEvent where
| key (k : Nat)
| complete
deriving DecidableEq, Repr

/-- `onKeypress` of `src/prompt.ts`, restricted to the latch logic.
`isQuit` recognises the global quit chords (`q`, `ctrl+c`, `ctrl+d`), which
are handled before the latch; `options` resolves a key to the matching
enabled option's action kind (or none).  A keypress while hidden or blocked
is dropped.  Otherwise the latch is set; a synchronous action (or no match)
re-clears it before the handler returns, while an asynchronous action
leaves it set and registers a completion callback. -/
def onKeypressStep (isQuit : Nat → Bool) (options : Nat → Option ActionKind)
    (s : PromptLatchState) (k : Nat) : PromptLatchState :=
  if isQuit k then s
  else if !s.visible || s.keypressBlocked then s
  else
    match options k with
    | some ActionKind.async => { s with keypressBlocked := true, running := s.running + 1 }
    | some ActionKind.sync => s
    | none => s

/-- The `then` callback installed by `onKeypress` after an asynchronous
action: clear the latch once the action's work completes.  (A completion
event can only occur while an action is in flight.) -/
def completeStep (s : PromptLatchState) : PromptLatchState :=
  if s.running > 0 then { s with keypressBlocked := false, running := s.running - 1 } else s

/-- One event-loop step of the prompt controller. -/
def promptStep (isQuit : Nat → Bool) (options : Nat → Option ActionKind)
    (s : PromptLatchState) (e : PromptEvent) : PromptLatchState :=
  match e with
  | PromptEvent.key k => onKeypressStep isQuit options s k
  | PromptEvent.complete => completeStep s

/-- Run the prompt controller over a sequence of event-loop events. -/
def promptRun (isQuit : Nat → Bool) (options : Nat → Option ActionKind)
    (s : PromptLatchState) (events : List PromptEvent) : PromptLatchState :=
  events.foldl (promptStep isQuit options) s

/-- JavaScript `\s` (the whitespace class used by the tokenizer of
`src/wordWrap.ts` and by the trailing-whitespace trim in `wordWrap`). -/
def isJsSpace (c : Char) : Bool :=
  c = ' ' || c = '\t' || c = '\n' || c = '\r' || c = '\x0b' || c = '\x0c' ||
  c = ' ' || c = ' ' || (0x2000 ≤ c.toNat && c.toNat ≤ 0x200a) ||
  c = ' ' || c = ' ' || c = ' ' || c = ' ' ||
  c = '　' || c = '﻿'

/-- The `wordBreak` character class `[\s​]` of the tokenizer regex. -/
def isWordBreakChar (c : Char) : Bool :=
  isJsSpace c || c = '​'

/-- Greedy `\d*`. -/
def takeDigits (s : List Char) : List Char × List Char :=
  s.span Char.isDigit

/-- Greedy `(?:;\d*)+`: one or more groups of a semicolon followed by
digits.  `fuel` bounds the recursion; the caller passes the remaining
input length, which suffices because every group consumes at least one
character. -/
def semiGroups (fuel : Nat) (s : List Char) : Option (List Char × List Char) :=
  match fuel, s with
  | 0, _ => none
  | _, [] => none
  | fuel + 1, c :: rest =>
    if c = ';' then
      let (d, r) := takeDigits rest
      match semiGroups fuel r with
      | some (g, r2) => some (c :: (d ++ g), r2)
      | none => some (c :: d, r)
    else none

/-- One escape sequence `\u001b\[\d*(?:;\d*)+m` of the tokenizer regex
(note that the pattern requires at least one semicolon group). -/
def escapeUnit (s : List Char) : Option (List Char × List Char) :=
  match s with
  | '\x1b' :: '[' :: rest =>
    let (d, r) := takeDigits rest
    match semiGroups r.length r with
    | some (g, r2) =>
      match r2 with
      | 'm' :: r3 => some ('\x1b' :: '[' :: (d ++ g ++ ['m']), r3)
      | _ => none
    | none => none
  | _ => none

/-- Greedy `(?:...)+` over escape sequences: the `escape` token is a
maximal run of one or more escape sequences. -/
def escapeRun (fuel : Nat) (s : List Char) : Option (List Char × List Char) :=
  match fuel with
  | 0 => none
  | fuel + 1 =>
    match escapeUnit s with
    | none => none
    | some (u, r) =>
      match escapeRun fuel r with
      | some (u2, r2) => some (u ++ u2, r2)
      | none => some (u, r)

/-- Token kinds of the `src/wordWrap.ts` tokenizer. -/
inductive TokenKind where
| escape
| word
| wordBreak
| lineBreak
deriving DecidableEq, Repr

/-- A token of the `src/wordWrap.ts` tokenizer. -/
structure Token where
kind : TokenKind
value : List Char
deriving DecidableEq, Repr

/-- The scanning loop of `tokenize` in `src/wordWrap.ts`.  At each position
the sticky regex tries, in order: an escape run, a line break (`\r?\n`), a
maximal whitespace run (`[\s​]+`, which may swallow embedded line
breaks that do not start the run), and finally a single character, which is
accumulated into the pending word (`word` holds it reversed); the pending
word is emitted before any non-character token and at the end of input. -/
def tokenizeGo (fuel : Nat) (s : List Char) (word : List Char) : List Token :=
  let flush := if word.isEmpty then [] else [⟨TokenKind.word, word.reverse⟩]
  match fuel with
  | 0 => flush
  | fuel + 1 =>
    match s with
    | [] => flush
    | c :: rest =>
      match escapeRun (c :: rest).length (c :: rest) with
      | some (esc, r) => flush ++ ⟨TokenKind.escape, esc⟩ :: tokenizeGo fuel r []
      | none =>
        if c = '\r' then
          match rest with
          | '\n' :: r2 => flush ++ ⟨TokenKind.lineBreak, ['\r', '\n']⟩ :: tokenizeGo fuel r2 []
          | _ =>
            let p := (c :: rest).span isWordBreakChar
            flush ++ ⟨TokenKind.wordBreak, p.1⟩ :: tokenizeGo fuel p.2 []
        else if c = '\n' then
          flush ++ ⟨TokenKind.lineBreak, ['\n']⟩ :: tokenizeGo fuel rest []
        else if isWordBreakChar c then
          let p := (c :: rest).span isWordBreakChar
          flush ++ ⟨TokenKind.wordBreak, p.1⟩ :: tokenizeGo fuel p.2 []
        else tokenizeGo fuel rest (c :: word)

/-- `tokenize` of `src/wordWrap.ts`. -/
def tokenize (s : List Char) : List Token :=
  tokenizeGo (s.length + 1) s []

/-- `line.replace(/\s+$/, "")`: drop trailing JS whitespace (note that
`​` is not in `\s` and is therefore kept). -/
def trimTrailingSpace (line : List Char) : List Char :=
  (line.reverse.dropWhile isJsSpace).reverse

/-- The token loop of `wordWrap` in `src/wordWrap.ts`: line breaks flush
the current line; escapes are appended without contributing to the width;
a word or whitespace run that would overflow the width flushes the trimmed
current line first, discarding the token when it is a single space. -/
def wordWrapGo (width : Nat) (tokens : List Token) (lines : List (List Char))
    (line : List Char) (lineSize : Nat) : List (List Char) :=
  match tokens with
  | [] => if line.isEmpty then lines else lines ++ [line]
  | t :: rest =>
    match t.kind with
    | TokenKind.lineBreak => wordWrapGo width rest (lines ++ [line]) [] 0
    | TokenKind.escape => wordWrapGo width rest lines (line ++ t.value) lineSize
    | _ =>
      if lineSize + t.value.length > width then
        let flushed := lines ++ [trimTrailingSpace line]
        if t.kind = TokenKind.wordBreak ∧ t.value = [' '] then
          wordWrapGo width rest flushed [] 0
        else
          wordWrapGo width rest flushed t.value t.value.length
      else
        wordWrapGo width rest lines (line ++ t.value) (lineSize + t.value.length)

/-- `wordWrap` of `src/wordWrap.ts`. -/
def wordWrap (s : String) (width : Nat) : List String :=
  (wordWrapGo width (tokenize s.data) [] [] 0).map fun cs => String.mk cs

/-- `Screen.reflowSource` of `src/screen.ts`: when some line exceeds the
terminal width, rebuild the line list, pushing each line longer than the
width through unchanged and concatenating the word-wrap of each line that
already fits.  (String length models the JS UTF-16 `length`; the two agree
on basic-plane text.) -/
def reflowSource (width : Nat) (source : List String) : List String :=
  if source.any fun line => line.length > width then
    source.foldl
      (fun reflow line =>
        if line.length > width then reflow ++ [line]
        else reflow ++ wordWrap line width)
      []
  else source

theorem countP_set_add {α : Type} (p : α → Bool) (l : List α) :
    ∀ (i : Nat) (c : α) (h : i < l.length),
    (l.set i c).countP p + (if p (l.get ⟨i, h⟩) then 1 else 0) =
      l.countP p + (if p c then 1 else 0) := by
  induction l with
  | nil => intro i c h; simp at h
  | cons a l ih =>
    intro i c h
    cases i with
    | zero => simp [List.countP_cons]; omega
    | succ n =>
      have hn : n < l.length := by simpa using h
      have ihn := ih n c hn
      simp only [List.get_eq_getElem] at ihn ⊢
      simp [List.countP_cons]
      omega

theorem countP_eraseIdx_add {α : Type} (p : α → Bool) (l : List α) :
    ∀ (i : Nat) (h : i < l.length),
    (l.eraseIdx i).countP p + (if p (l.get ⟨i, h⟩) then 1 else 0) = l.countP p := by
  induction l with
  | nil => intro i h; simp at h
  | cons a l ih =>
    intro i h
    cases i with
    | zero => simp [List.countP_cons]
    | succ n =>
      have hn : n < l.length := by simpa using h
      have ihn := ih n hn
      simp only [List.get_eq_getElem] at ihn ⊢
      simp [List.countP_cons]
      omega

/-- C4: for every column queue with offset strictly below the number of
cards, `nextCard` hands back the card at the current offset with both flags
cleared (regardless of the flags set before the call), decrements the
counter matching each flag that was set by exactly one, and advances the
offset by one; when the offset equals the queue length it returns nothing
and changes no state. -/
theorem nextCard_spec (column : ColumnState) :
    (∀ h : column.offset < column.cards.length,
        (nextCard column).1 =
          some { column.cards.get ⟨column.offset, h⟩ with deferred := false, skipped := false }
      ∧ (nextCard column).2.offset = column.offset + 1
      ∧ (nextCard column).2.cards =
          column.cards.set column.offset
            { column.cards.get ⟨column.offset, h⟩ with deferred := false, skipped := false }
      ∧ (nextCard column).2.skippedCount =
          column.skippedCount -
            (if (column.cards.get ⟨column.offset, h⟩).skipped then 1 else 0)
      ∧ (nextCard column).2.deferredCount =
          column.deferredCount -
            (if (column.cards.get ⟨column.offset, h⟩).deferred then 1 else 0))
  ∧ (column.offset = column.cards.length → nextCard column = (none, column)) := by
  constructor
  · intro h
    unfold nextCard
    rw [dif_pos h]
    refine ⟨rfl, rfl, rfl, ?_, ?_⟩ <;> (split <;> simp_all [List.get_eq_getElem])
  · intro h
    unfold nextCard
    rw [dif_neg (by omega)]

/-- Witness for C4 at a concrete queue: a single card flagged both skipped
and deferred is handed back with both flags cleared, the offset advances to
1 and both counters drop by one. -/
theorem nextCard_spec_witness :
    (nextCard ⟨[⟨7, false, true, true⟩], 0, false, 0, 1, 1, false⟩).1 =
      some ⟨7, false, false, false⟩
  ∧ (nextCard ⟨[⟨7, false, true, true⟩], 0, false, 0, 1, 1, false⟩).2.offset = 1
  ∧ (nextCard ⟨[⟨7, false, true, true⟩], 0, false, 0, 1, 1, false⟩).2.skippedCount = 0
  ∧ (nextCard ⟨[⟨7, false, true, true⟩], 0, false, 0, 1, 1, false⟩).2.deferredCount = 0 := by
  have h := (nextCard_spec ⟨[⟨7, false, true, true⟩], 0, false, 0, 1, 1, false⟩).1 (by decide)
  refine ⟨h.1, h.2.1, ?_, ?_⟩
  · rw [h.2.2.2.1]; decide
  · rw [h.2.2.2.2]; decide

/-- C5: a pull with a skip-registry entry `excludeTimestamp` is suppressed
exactly when the current time is strictly before the entry plus the 7-day
window and the pull's last update is still earlier than the entry.  (For a
zero entry the source's falsiness check returns false, and the right-hand
side is equally false since no update precedes timestamp 0.) -/
theorem shouldSkip_iff (now excludeTimestamp lastUpdate : Nat) :
    shouldSkip now (some excludeTimestamp) lastUpdate = true ↔
      now < excludeTimestamp + MAX_EXCLUDE_TIMEOUT ∧ lastUpdate < excludeTimestamp := by
  simp only [shouldSkip]
  split_ifs with h0 hge
  · simp [h0]
  · constructor
    · intro h; cases h
    · intro h; omega
  · simp
    omega

/-- C2 counterexample: with approval mode `auto` and a pull whose affected
packages are all currently owner-approved (`approvedByOwners = yes`) but
which has no current maintainer approval and no approval by the operator,
other approvers exist and yet the merge action performs a pre-merge
approval (and `approvePull` then submits a review), refuting "an approval
is performed only if no other approvers exist yet". -/
theorem merge_approval_counterexample :
    mergeNeedsApproval ApprovalMode.auto Tri.yes Tri.no Tri.no = true
  ∧ mergeActionSubmitsApproval ApprovalMode.auto Tri.yes Tri.no Tri.no = true := by
  decide

/-- C2 amended: under `manual` no pre-merge approval is ever performed;
under `auto` the merge action performs an approval exactly when owner
approval and maintainer approval are not both current; under `always`
exactly when the operator's approval and maintainer approval are not both
current; composed with the guard inside `approvePull`, a review is actually
submitted under `always` exactly when the operator's approval is not
current, and under `auto` exactly when the approvals are not both current
and the operator's approval is not current. -/
theorem merge_approval_decision (approvedByOwners approvedByMe approvedByMaintainer : Tri) :
    mergeNeedsApproval ApprovalMode.manual approvedByOwners approvedByMe approvedByMaintainer = false
  ∧ (mergeNeedsApproval ApprovalMode.auto approvedByOwners approvedByMe approvedByMaintainer = true
      ↔ ¬(approvedByOwners = Tri.yes ∧ approvedByMaintainer = Tri.yes))
  ∧ (mergeNeedsApproval ApprovalMode.always approvedByOwners approvedByMe approvedByMaintainer = true
      ↔ ¬(approvedByMe = Tri.yes ∧ approvedByMaintainer = Tri.yes))
  ∧ (mergeActionSubmitsApproval ApprovalMode.always approvedByOwners approvedByMe approvedByMaintainer = true
      ↔ approvedByMe ≠ Tri.yes)
  ∧ (mergeActionSubmitsApproval ApprovalMode.auto approvedByOwners approvedByMe approvedByMaintainer = true
      ↔ (¬(approvedByOwners = Tri.yes ∧ approvedByMaintainer = Tri.yes) ∧ approvedByMe ≠ Tri.yes))
  ∧ mergeActionSubmitsApproval ApprovalMode.manual approvedByOwners approvedByMe approvedByMaintainer = false := by
  cases approvedByOwners <;> cases approvedByMe <;> cases approvedByMaintainer <;> decide

/-- C7: evaluating `reflowSource` at terminal width 3 on the lines
`"aa bb"` (too wide) and `""` (fits).  The claim requires the over-wide
line to be soft word-wrapped (its wrap is `["aa", "bb"]`, as the second
conjunct shows) and the fitting line to be emitted unchanged; the code does
the opposite: it pushes the over-wide line through unchanged and
word-wraps the fitting line, which drops the empty line entirely. -/
theorem reflowSource_keeps_overwide_lines :
    reflowSource 3 ["aa bb", ""] = ["aa bb"]
  ∧ wordWrap "aa bb" 3 = ["aa", "bb"] := by
  constructor
  · rfl
  · rfl

/-- C6 counterexample: three concrete settings refuting the round-trip
claim as stated.  (1) with both column filters enabled (both differ from
their default `false`) `saveSettings` omits both, and they reload as
`false`; (2) `needsReview` equal to its default is written as `false`
rather than omitted; (3) an empty-string `chromePath` differs from its
default (`undefined`) but is omitted and reloads as `undefined`. -/
theorem settings_roundtrip_counterexample :
    readSettings (saveSettings
        { getDefaultSettings with needsReview := true, needsAction := true })
      ≠ { getDefaultSettings with needsReview := true, needsAction := true }
  ∧ (saveSettings getDefaultSettings).needsReview = some false
  ∧ readSettings (saveSettings { getDefaultSettings with chromePath := some "" })
      ≠ { getDefaultSettings with chromePath := some "" } := by
  refine ⟨?_, rfl, ?_⟩
  · intro h
    have := congrArg Settings.needsReview h
    simp [readSettings, saveSettings, getDefaultSettings] at this
  · intro h
    have := congrArg Settings.chromePath h
    simp [readSettings, saveSettings, getDefaultSettings] at this

/-- C6 amended: saving then loading reproduces every field exactly —
hence every non-default field — provided the two column filters are not
both enabled and none of the chrome path fields is the empty string; and
saving the default settings omits every field except `needsReview` and
`needsAction`, which are written even at their default `false` (absent
fields reload to their documented defaults via `readSettings`). -/
theorem settings_roundtrip_amended (s : Settings)
    (h1 : ¬(s.needsReview = true ∧ s.needsAction = true))
    (h2 : s.chromePath ≠ some "") (h3 : s.chromeProfile ≠ some "")
    (h4 : s.chromeUserDataDir ≠ some "") :
    readSettings (saveSettings s) = s
  ∧ saveSettings getDefaultSettings =
      { needsReview := some false, needsAction := some false, oldest := none,
        draft := none, wip := none, skipped := none, port := none,
        timeout := none, merge := none, approve := none, chromePath := none,
        chromeProfile := none, chromeUserDataDir := none, username := none } := by
  refine ⟨?_, by rfl⟩
  rcases s with ⟨nr, na, old, dr, wp, sk, pt, tm, mg, ap, cp, cpr, cu, un⟩
  simp only [saveSettings, readSettings, Settings.mk.injEq]
  refine ⟨?_, ?_, ?_, ?_, ?_, ?_, ?_, ?_, trivial, ?_, ?_, ?_, ?_, trivial⟩
  · cases na <;> cases nr <;> simp_all
  · cases na <;> cases nr <;> simp_all
  · cases old <;> simp
  · cases dr <;> simp
  · cases wp <;> simp
  · cases sk <;> simp
  · by_cases h : pt = PortSetting.num 9222 <;> simp [h]
  · by_cases h : tm = 10000 <;> simp [h]
  · by_cases h : ap = ApprovalMode.manual <;> simp [h]
  · simp_all
  · simp_all
  · simp_all

/-- Witness for C6 amended at a concrete settings value with several
non-default fields. -/
theorem settings_roundtrip_amended_witness :
    readSettings (saveSettings
        { getDefaultSettings with
            oldest := true, merge := some MergeMode.squash, timeout := 5000 }) =
      { getDefaultSettings with
          oldest := true, merge := some MergeMode.squash, timeout := 5000 } := by
  exact (settings_roundtrip_amended _ (by decide) (by decide) (by decide) (by decide)).1

/-- C1: the pairwise rule by which `pickMostRelevantReview` chooses the
review controlling a package's owner-approval status: a CHANGES_REQUESTED
review beats an APPROVED review unless the CHANGES_REQUESTED one is
outdated and the APPROVED one is not (in either argument order), and
between two reviews of the same state the one with the later submission
timestamp wins. -/
theorem pickMostRelevantReview_rule (l r : Review) :
    (l.state = RState.changes_requested → r.state = RState.approved →
      pickMostRelevantReview (some l) r =
        if l.isOutdated = true ∧ r.isOutdated = false then r else l)
  ∧ (l.state = RState.approved → r.state = RState.changes_requested →
      pickMostRelevantReview (some l) r =
        if r.isOutdated = true ∧ l.isOutdated = false then l else r)
  ∧ (l.state = r.state → l.submitted_at ≠ r.submitted_at →
      pickMostRelevantReview (some l) r =
        if r.submitted_at < l.submitted_at then l else r) := by
  obtain ⟨lu, ls, lt, lo⟩ := l
  obtain ⟨ru, rs, rt, ro⟩ := r
  refine ⟨?_, ?_, ?_⟩
  · intro h1 h2
    subst h1; subst h2
    simp only [pickMostRelevantReview, Review.mk.injEq]
    cases lo <;> cases ro <;> simp
  · intro h1 h2
    subst h1; subst h2
    simp only [pickMostRelevantReview, Review.mk.injEq]
    cases lo <;> cases ro <;> simp
  · intro h1 h2
    simp only at h1
    subst h1
    simp only [pickMostRelevantReview, Review.mk.injEq]
    simp only at h2
    have hne : ¬(lu = ru ∧ lt = rt ∧ lo = ro) := by
      intro h; exact h2 h.2.1
    rw [if_neg (by simpa using hne)]
    simp [GT.gt]

/-- Witness for C1: an outdated CHANGES_REQUESTED review loses to a fresh
APPROVED review. -/
theorem pickMostRelevantReview_rule_witness :
    pickMostRelevantReview (some ⟨1, RState.changes_requested, 5, true⟩)
        ⟨2, RState.approved, 9, false⟩ = ⟨2, RState.approved, 9, false⟩ := by
  have h := (pickMostRelevantReview_rule ⟨1, RState.changes_requested, 5, true⟩
      ⟨2, RState.approved, 9, false⟩).1 rfl rfl
  simpa using h

/-- C9: the keypress latch of the active prompt serialises option actions.
Starting from an idle prompt (latch clear, nothing in flight), after any
sequence of event-loop events at most one action is ever in flight and the
latch is set exactly while one is; moreover a keystroke arriving while the
latch is set leaves the state unchanged (it is dropped, not queued). -/
theorem prompt_latch_serialized (isQuit : Nat → Bool)
    (options : Nat → Option ActionKind) (s0 : PromptLatchState)
    (events : List PromptEvent) (h1 : s0.keypressBlocked = false)
    (h2 : s0.running = 0) :
    ((promptRun isQuit options s0 events).running ≤ 1
      ∧ ((promptRun isQuit options s0 events).keypressBlocked = true
          ↔ (promptRun isQuit options s0 events).running = 1))
  ∧ (∀ s : PromptLatchState, ∀ k : Nat, s.keypressBlocked = true →
      onKeypressStep isQuit options s k = s) := by
  constructor
  · suffices h : ∀ (s : PromptLatchState), s.running ≤ 1 →
        (s.keypressBlocked = true ↔ s.running = 1) →
        (promptRun isQuit options s events).running ≤ 1
          ∧ ((promptRun isQuit options s events).keypressBlocked = true
              ↔ (promptRun isQuit options s events).running = 1) by
      exact h s0 (by omega) (by rw [h1, h2]; simp)
    induction events with
    | nil => intro s hs1 hs2; exact ⟨hs1, hs2⟩
    | cons e rest ih =>
      intro s hs1 hs2
      have hstep : (promptStep isQuit options s e).running ≤ 1
          ∧ ((promptStep isQuit options s e).keypressBlocked = true
              ↔ (promptStep isQuit options s e).running = 1) := by
        cases e with
        | key k =>
          simp only [promptStep, onKeypressStep]
          by_cases hq : isQuit k
          · simp only [hq, if_true]; exact ⟨hs1, hs2⟩
          · simp only [hq, if_false]
            by_cases hb : s.keypressBlocked
            · simp [hb]; exact ⟨hs1, hs2.mp hb⟩
            · by_cases hv : s.visible
              · simp only [hv, hb, Bool.not_true, Bool.false_or, if_false]
                have hr0 : s.running = 0 := by
                  have : ¬s.running = 1 := fun hr => hb (hs2.mpr hr)
                  omega
                cases hok : options k with
                | none => exact ⟨hs1, hs2⟩
                | some a =>
                  cases a with
                  | sync => exact ⟨hs1, hs2⟩
                  | async => simp [hr0]
              · simp [hv]; exact ⟨hs1, hs2⟩
        | complete =>
          simp only [promptStep, completeStep]
          by_cases hr : s.running > 0
          · have : s.running = 1 := by omega
            simp [hr, this]
          · simp only [hr, if_false]; exact ⟨hs1, hs2⟩
      exact ih _ hstep.1 hstep.2
  · intro s k hb
    simp only [onKeypressStep, hb]
    split <;> simp

/-- Witness for C9: a blocked second keystroke between an asynchronous
action and its completion leaves at most one action in flight. -/
theorem prompt_latch_serialized_witness :
    (promptRun (fun _ => false) (fun _ => some ActionKind.async)
        ⟨true, false, 0⟩
        [PromptEvent.key 1, PromptEvent.key 2, PromptEvent.complete]).running ≤ 1 := by
  exact (prompt_latch_serialized (fun _ => false) (fun _ => some ActionKind.async)
      ⟨true, false, 0⟩ [PromptEvent.key 1, PromptEvent.key 2, PromptEvent.complete]
      rfl rfl).1.1

theorem repop_fold (prev : ColumnState) (ids : List Nat) :
    ∀ acc : RepopAcc,
    (ids.map fun id => ({ card := id } : CardState)).foldl (repopStep prev) acc =
      { deferredCards := acc.deferredCards ++ deferredOf prev ids
        previouslySeenCards := acc.previouslySeenCards ++ seenOf prev ids
        otherCards := acc.otherCards ++ otherOf prev ids
        skippedCount := acc.skippedCount +
          ((((seenOf prev ids).countP fun c => c.skipped) +
            ((otherOf prev ids).countP fun c => c.skipped) : Nat) : Int)
        deferredCount := acc.deferredCount + ((deferredOf prev ids).length : Int) } := by
  induction ids with
  | nil =>
    intro acc
    simp [seenOf, otherOf, deferredOf]
  | cons id rest ih =>
    intro acc
    simp only [List.map_cons, List.foldl_cons]
    cases hfind : findPrevCard prev.cards id with
    | none =>
      rw [show repopStep prev acc { card := id } = acc by simp [repopStep, hfind]]
      rw [ih acc]
      simp [seenOf, otherOf, deferredOf, hfind]
    | some p =>
      obtain ⟨i, pc⟩ := p
      by_cases hd : pc.deferred = true
      · rw [show repopStep prev acc { card := id } =
            { acc with
              deferredCards := acc.deferredCards ++ [{ card := id, deferred := true }]
              deferredCount := acc.deferredCount + 1 } by
          simp [repopStep, hfind, hd]]
        rw [ih]
        simp [seenOf, otherOf, deferredOf, hfind, hd, List.countP_cons]
        omega
      · by_cases hle : i ≤ prev.offset
        · have hnlt : ¬prev.offset < i := by omega
          by_cases hs : pc.skipped = true
          · rw [show repopStep prev acc { card := id } =
                { acc with
                  previouslySeenCards :=
                    acc.previouslySeenCards ++ [{ card := id, skipped := true }]
                  skippedCount := acc.skippedCount + 1 } by
              simp [repopStep, hfind, hd, hs, hle]]
            rw [ih]
            simp [seenOf, otherOf, deferredOf, hfind, hd, hs, hle, hnlt, List.countP_cons]
            omega
          · rw [show repopStep prev acc { card := id } =
                { acc with
                  previouslySeenCards := acc.previouslySeenCards ++ [{ card := id }] } by
              simp [repopStep, hfind, hd, hs, hle]]
            rw [ih]
            simp [seenOf, otherOf, deferredOf, hfind, hd, hs, hle, hnlt, List.countP_cons]
        · have hlt : prev.offset < i := by omega
          by_cases hs : pc.skipped = true
          · rw [show repopStep prev acc { card := id } =
                { acc with
                  otherCards := acc.otherCards ++ [{ card := id, skipped := true }]
                  skippedCount := acc.skippedCount + 1 } by
              simp [repopStep, hfind, hd, hs, hle]]
            rw [ih]
            simp [seenOf, otherOf, deferredOf, hfind, hd, hs, hle, hlt, List.countP_cons]
            omega
          · rw [show repopStep prev acc { card := id } =
                { acc with otherCards := acc.otherCards ++ [{ card := id }] } by
              simp [repopStep, hfind, hd, hs, hle]]
            rw [ih]
            simp [seenOf, otherOf, deferredOf, hfind, hd, hs, hle, hlt, List.countP_cons]

theorem seenOf_flags (prev : ColumnState) (ids : List Nat) :
    ∀ c ∈ seenOf prev ids,
      c.deferred = false ∧ (findPrevCard prev.cards c.card).isSome := by
  induction ids with
  | nil => simp [seenOf]
  | cons id rest ih =>
    intro c hc
    cases hfind : findPrevCard prev.cards id with
    | none =>
      simp only [seenOf, hfind] at hc
      exact ih c hc
    | some p =>
      obtain ⟨i, pc⟩ := p
      simp only [seenOf, hfind] at hc
      split at hc
      · rcases List.mem_cons.mp hc with hcq | hcr
        · subst hcq; exact ⟨rfl, by simp [hfind]⟩
        · exact ih c hcr
      · exact ih c hc

theorem otherOf_flags (prev : ColumnState) (ids : List Nat) :
    ∀ c ∈ otherOf prev ids,
      c.deferred = false ∧ (findPrevCard prev.cards c.card).isSome := by
  induction ids with
  | nil => simp [otherOf]
  | cons id rest ih =>
    intro c hc
    cases hfind : findPrevCard prev.cards id with
    | none =>
      simp only [otherOf, hfind] at hc
      exact ih c hc
    | some p =>
      obtain ⟨i, pc⟩ := p
      simp only [otherOf, hfind] at hc
      split at hc
      · rcases List.mem_cons.mp hc with hcq | hcr
        · subst hcq; exact ⟨rfl, by simp [hfind]⟩
        · exact ih c hcr
      · exact ih c hc

theorem deferredOf_flags (prev : ColumnState) (ids : List Nat) :
    ∀ c ∈ deferredOf prev ids,
      c.deferred = true ∧ c.skipped = false
        ∧ (findPrevCard prev.cards c.card).isSome := by
  induction ids with
  | nil => simp [deferredOf]
  | cons id rest ih =>
    intro c hc
    cases hfind : findPrevCard prev.cards id with
    | none =>
      simp only [deferredOf, hfind] at hc
      exact ih c hc
    | some p =>
      obtain ⟨i, pc⟩ := p
      simp only [deferredOf, hfind] at hc
      split at hc
      · rcases List.mem_cons.mp hc with hcq | hcr
        · subst hcq; exact ⟨rfl, rfl, by simp [hfind]⟩
        · exact ih c hcr
      · exact ih c hc

theorem seenOf_cons_subset (prev : ColumnState) (id : Nat) (rest : List Nat) :
    seenOf prev rest ⊆ seenOf prev (id :: rest) := by
  intro c hc
  cases hfind : findPrevCard prev.cards id with
  | none =>
    simp only [seenOf, hfind]
    exact hc
  | some p =>
    obtain ⟨i, pc⟩ := p
    simp only [seenOf, hfind]
    split
    · exact List.mem_cons_of_mem _ hc
    · exact hc

theorem otherOf_cons_subset (prev : ColumnState) (id : Nat) (rest : List Nat) :
    otherOf prev rest ⊆ otherOf prev (id :: rest) := by
  intro c hc
  cases hfind : findPrevCard prev.cards id with
  | none =>
    simp only [otherOf, hfind]
    exact hc
  | some p =>
    obtain ⟨i, pc⟩ := p
    simp only [otherOf, hfind]
    split
    · exact List.mem_cons_of_mem _ hc
    · exact hc

theorem deferredOf_cons_subset (prev : ColumnState) (id : Nat) (rest : List Nat) :
    deferredOf prev rest ⊆ deferredOf prev (id :: rest) := by
  intro c hc
  cases hfind : findPrevCard prev.cards id with
  | none =>
    simp only [deferredOf, hfind]
    exact hc
  | some p =>
    obtain ⟨i, pc⟩ := p
    simp only [deferredOf, hfind]
    split
    · exact List.mem_cons_of_mem _ hc
    · exact hc

theorem parts_contain (prev : ColumnState) (ids : List Nat) :
    ∀ id ∈ ids, (findPrevCard prev.cards id).isSome →
      ∃ c ∈ seenOf prev ids ++ otherOf prev ids ++ deferredOf prev ids,
        c.card = id := by
  induction ids with
  | nil => simp
  | cons id0 rest ih =>
    intro id hid hsome
    rcases List.mem_cons.mp hid with heq | hmem
    · subst heq
      cases hfind : findPrevCard prev.cards id with
      | none => rw [hfind] at hsome; simp at hsome
      | some p =>
        obtain ⟨i, pc⟩ := p
        by_cases hd : pc.deferred = true
        · refine ⟨{ card := id, deferred := true }, ?_, rfl⟩
          refine List.mem_append.mpr (Or.inr ?_)
          simp only [deferredOf, hfind, hd, if_pos]
          exact List.mem_cons_self _ _
        · by_cases hle : i ≤ prev.offset
          · refine ⟨{ card := id, skipped := pc.skipped }, ?_, rfl⟩
            refine List.mem_append.mpr (Or.inl (List.mem_append.mpr (Or.inl ?_)))
            simp only [seenOf, hfind]
            rw [if_pos (by simp [hd, hle])]
            exact List.mem_cons_self _ _
          · refine ⟨{ card := id, skipped := pc.skipped }, ?_, rfl⟩
            refine List.mem_append.mpr (Or.inl (List.mem_append.mpr (Or.inr ?_)))
            simp only [otherOf, hfind]
            rw [if_pos (by simp [hd]; omega)]
            exact List.mem_cons_self _ _
    · obtain ⟨c, hcmem, hcid⟩ := ih id hmem hsome
      refine ⟨c, ?_, hcid⟩
      rcases List.mem_append.mp hcmem with hin | hdef
      · rcases List.mem_append.mp hin with hseen | hother
        · exact List.mem_append.mpr (Or.inl (List.mem_append.mpr
            (Or.inl (seenOf_cons_subset prev id0 rest hseen))))
        · exact List.mem_append.mpr (Or.inl (List.mem_append.mpr
            (Or.inr (otherOf_cons_subset prev id0 rest hother))))
      · exact List.mem_append.mpr (Or.inr (deferredOf_cons_subset prev id0 rest hdef))

theorem repopulateFrom_eq (prev : ColumnState) (fetched : List Nat) (oldest : Bool) :
    repopulateFrom prev (populateFresh fetched oldest) =
      { cards := seenOf prev fetched ++ otherOf prev fetched ++ deferredOf prev fetched
        offset := (seenOf prev fetched).length
        oldestFirst := oldest
        completedCount := 0
        skippedCount := ((((seenOf prev fetched).countP fun c => c.skipped) +
          ((otherOf prev fetched).countP fun c => c.skipped) : Nat) : Int)
        deferredCount := ((deferredOf prev fetched).length : Int)
        refresh := false } := by
  simp only [repopulateFrom, populateFresh]
  rw [repop_fold]
  simp

/-- C3 counterexample: a refresh repopulation where the previous queue held
only card 1 and the fresh fetch returns cards 1 and 2.  Card 2 is present in
the newly fetched card list but absent from the rebuilt queue, refuting "in
particular, every item present in the newly fetched card list remains in
the rebuilt queue". -/
theorem populate_refresh_counterexample :
    (populateState [1, 2] false
        (some ⟨[⟨1, false, false, false⟩], 0, false, 0, 0, 0, true⟩)).cards.map
        (fun c => c.card) = [1]
  ∧ ∀ c ∈ (populateState [1, 2] false
        (some ⟨[⟨1, false, false, false⟩], 0, false, 0, 0, 0, true⟩)).cards,
      c.card ≠ 2 := by
  decide

/-- C3 amended: a queue rebuilt by a refresh repopulation consists of the
previously visited fetched items at the front (previous index at most the
previous offset, in fetched order, flags copied), then the fetched items
present before but not yet seen in their newly fetched order, then the
previously deferred fetched items at the tail, with the offset placed after
the front block; every fetched item that was present in the previous queue
remains in the rebuilt queue, while a fetched item absent from the previous
queue is dropped. -/
theorem populate_refresh_structure (prev : ColumnState) (fetched : List Nat)
    (oldest : Bool) (h : prev.refresh = true) :
    (populateState fetched oldest (some prev)).cards =
        seenOf prev fetched ++ otherOf prev fetched ++ deferredOf prev fetched
  ∧ (populateState fetched oldest (some prev)).offset =
        (seenOf prev fetched).length
  ∧ (∀ id ∈ fetched, (findPrevCard prev.cards id).isSome →
        ∃ c ∈ (populateState fetched oldest (some prev)).cards, c.card = id)
  ∧ (∀ id ∈ fetched, findPrevCard prev.cards id = none →
        ∀ c ∈ (populateState fetched oldest (some prev)).cards, c.card ≠ id) := by
  have hstate : populateState fetched oldest (some prev) =
      repopulateFrom prev (populateFresh fetched oldest) := by
    simp [populateState, h]
  rw [hstate, repopulateFrom_eq]
  refine ⟨rfl, rfl, ?_, ?_⟩
  · intro id hid hsome
    exact parts_contain prev fetched id hid hsome
  · intro id hid hnone c hc hcard
    have hsome : (findPrevCard prev.cards c.card).isSome := by
      rcases List.mem_append.mp hc with hin | hdef
      · rcases List.mem_append.mp hin with hseen | hother
        · exact (seenOf_flags prev fetched c hseen).2
        · exact (otherOf_flags prev fetched c hother).2
      · exact (deferredOf_flags prev fetched c hdef).2.2
    rw [hcard, hnone] at hsome
    simp at hsome

/-- Witness for C3 amended at a concrete refresh: previous queue
`[1 (skipped), 2, 3 (deferred)]` with offset 1, fresh fetch `[3, 1, 4]`. -/
theorem populate_refresh_structure_witness :
    (populateState [3, 1, 4] false
        (some ⟨[⟨1, false, true, false⟩, ⟨2, false, false, false⟩,
                ⟨3, false, false, true⟩], 1, false, 0, 1, 1, true⟩)).cards =
      seenOf ⟨[⟨1, false, true, false⟩, ⟨2, false, false, false⟩,
                ⟨3, false, false, true⟩], 1, false, 0, 1, 1, true⟩ [3, 1, 4]
        ++ otherOf ⟨[⟨1, false, true, false⟩, ⟨2, false, false, false⟩,
                ⟨3, false, false, true⟩], 1, false, 0, 1, 1, true⟩ [3, 1, 4]
        ++ deferredOf ⟨[⟨1, false, true, false⟩, ⟨2, false, false, false⟩,
                ⟨3, false, false, true⟩], 1, false, 0, 1, 1, true⟩ [3, 1, 4] := by
  exact (populate_refresh_structure _ [3, 1, 4] false rfl).1

theorem countP_false_eq_zero {α : Type} (l : List α) :
    l.countP (fun _ => false) = 0 := by
  induction l with
  | nil => rfl
  | cons a l ih => simp [List.countP_cons, ih]

theorem queueInv_populateFresh (fetched : List Nat) (oldest : Bool) :
    QueueInv (populateFresh fetched oldest) := by
  refine ⟨by simp [populateFresh], ?_, ?_⟩ <;>
    simp [populateFresh, List.countP_map, Function.comp_def, countP_false_eq_zero]

/-- C8: in every column-queue state reachable through populate/repopulate,
`nextCard` and the defer action, the offset stays between 0 and the number
of cards, and the skipped/deferred counters equal the number of cards
carrying the corresponding flag (hence are non-negative). -/
theorem queue_invariant (s : ColumnState) (h : Reachable s) : QueueInv s := by
  induction h with
  | populate fetched oldest =>
    exact queueInv_populateFresh fetched oldest
  | repopulate fetched oldest s hs ih =>
    by_cases hr : s.refresh = true
    · have hstate : populateState fetched oldest (some s) =
          repopulateFrom s (populateFresh fetched oldest) := by
        simp [populateState, hr]
      rw [hstate, repopulateFrom_eq]
      have hseen : ((seenOf s fetched).countP fun c => c.deferred) = 0 :=
        List.countP_eq_zero.mpr fun c hc => by
          simp [(seenOf_flags s fetched c hc).1]
      have hother : ((otherOf s fetched).countP fun c => c.deferred) = 0 :=
        List.countP_eq_zero.mpr fun c hc => by
          simp [(otherOf_flags s fetched c hc).1]
      have hdefd : ((deferredOf s fetched).countP fun c => c.deferred) =
          (deferredOf s fetched).length :=
        List.countP_eq_length.mpr fun c hc => by
          simp [(deferredOf_flags s fetched c hc).1]
      have hdefs : ((deferredOf s fetched).countP fun c => c.skipped) = 0 :=
        List.countP_eq_zero.mpr fun c hc => by
          simp [(deferredOf_flags s fetched c hc).2.1]
      refine ⟨by simp [List.length_append], ?_, ?_⟩
      · simp [List.countP_append, hdefs]
      · simp [List.countP_append, hseen, hother, hdefd]
    · have hstate : populateState fetched oldest (some s) =
          populateFresh fetched oldest := by
        simp [populateState, hr]
      rw [hstate]
      exact queueInv_populateFresh fetched oldest
  | next s hs ih =>
    obtain ⟨ih1, ih2, ih3⟩ := ih
    by_cases h : s.offset < s.cards.length
    · have hsk := countP_set_add (fun c => c.skipped) s.cards s.offset
        { s.cards.get ⟨s.offset, h⟩ with deferred := false, skipped := false } h
      have hdf := countP_set_add (fun c => c.deferred) s.cards s.offset
        { s.cards.get ⟨s.offset, h⟩ with deferred := false, skipped := false } h
      rw [show (if (false = true) then (1 : Nat) else 0) = 0 from rfl,
        Nat.add_zero] at hsk hdf
      refine ⟨?_, ?_, ?_⟩
      · show (nextCard s).2.offset ≤ (nextCard s).2.cards.length
        unfold nextCard
        rw [dif_pos h]
        dsimp only
        rw [List.length_set]
        omega
      · show (nextCard s).2.skippedCount =
          ((nextCard s).2.cards.countP fun c => c.skipped : Int)
        unfold nextCard
        rw [dif_pos h]
        show (if (s.cards.get ⟨s.offset, h⟩).skipped = true
            then s.skippedCount - 1 else s.skippedCount) =
          ((s.cards.set s.offset
            { s.cards.get ⟨s.offset, h⟩ with
                deferred := false, skipped := false }).countP
              (fun c => c.skipped) : Int)
        by_cases hflag : (s.cards.get ⟨s.offset, h⟩).skipped = true
        · rw [if_pos hflag, ih2]
          rw [if_pos hflag] at hsk
          omega
        · rw [if_neg hflag, ih2]
          rw [if_neg hflag] at hsk
          omega
      · show (nextCard s).2.deferredCount =
          ((nextCard s).2.cards.countP fun c => c.deferred : Int)
        unfold nextCard
        rw [dif_pos h]
        show (if (s.cards.get ⟨s.offset, h⟩).deferred = true
            then s.deferredCount - 1 else s.deferredCount) =
          ((s.cards.set s.offset
            { s.cards.get ⟨s.offset, h⟩ with
                deferred := false, skipped := false }).countP
              (fun c => c.deferred) : Int)
        by_cases hflag : (s.cards.get ⟨s.offset, h⟩).deferred = true
        · rw [if_pos hflag, ih3]
          rw [if_pos hflag] at hdf
          omega
        · rw [if_neg hflag, ih3]
          rw [if_neg hflag] at hdf
          omega
    · unfold nextCard
      rw [dif_neg h]
      exact ⟨ih1, ih2, ih3⟩
  | defer s b hs ih =>
    obtain ⟨ih1, ih2, ih3⟩ := ih
    unfold deferStep
    by_cases hc : 0 < s.offset ∧ s.offset < s.cards.length ∧ b = true
    · rw [if_pos hc]
      obtain ⟨hpos, hlt, hb⟩ := hc
      have hi : s.offset - 1 < s.cards.length := by omega
      have hget : s.cards[s.offset - 1]? = some (s.cards.get ⟨s.offset - 1, hi⟩) := by
        simp [List.getElem?_eq_getElem hi]
      have hsk := countP_eraseIdx_add (fun c => c.skipped) s.cards (s.offset - 1) hi
      have hdf := countP_eraseIdx_add (fun c => c.deferred) s.cards (s.offset - 1) hi
      refine ⟨?_, ?_, ?_⟩
      · simp only [hget, Option.toList_some, List.length_append,
          List.length_eraseIdx, if_pos hi, List.length_cons, List.length_nil]
        omega
      · simp only [hget, Option.toList_some, List.countP_append, List.countP_cons,
          List.countP_nil]
        rw [ih2]
        omega
      · simp only [hget, Option.toList_some, List.countP_append, List.countP_cons,
          List.countP_nil]
        rw [ih3]
        omega
    · rw [if_neg hc]
      exact ⟨ih1, ih2, ih3⟩

/-- Witness for C8: the invariant at a concrete state reached by a fresh
populate followed by one `nextCard`. -/
theorem queue_invariant_witness :
    QueueInv (nextCard (populateState [5, 6] false none)).2 :=
  queue_invariant _ (Reachable.next _ (Reachable.populate [5, 6] false))


theorem findUser_none (l : List Review) (u : Nat) (h : findUser l u = none) :
    ∀ r ∈ l, r.user ≠ u := by
  induction l with
  | nil => simp
  | cons a rest ih =>
    intro r hr
    simp only [findUser] at h
    by_cases ha : a.user = u
    · rw [if_pos ha] at h; cases h
    · rw [if_neg ha] at h
      rcases List.mem_cons.mp hr with rfl | hrr
      · exact ha
      · cases hf : findUser rest u with
        | none => exact ih hf r hrr
        | some p => rw [hf] at h; simp at h

theorem findUser_some (l : List Review) (u : Nat) :
    ∀ (i : Nat) (r : Review), findUser l u = some (i, r) →
      ∃ hi : i < l.length, l.get ⟨i, hi⟩ = r ∧ r.user = u := by
  induction l with
  | nil => intro i r h; simp [findUser] at h
  | cons a rest ih =>
    intro i r h
    simp only [findUser] at h
    by_cases ha : a.user = u
    · rw [if_pos ha] at h
      cases h
      exact ⟨by simp, rfl, ha⟩
    · rw [if_neg ha] at h
      cases hf : findUser rest u with
      | none => rw [hf] at h; simp at h
      | some p =>
        obtain ⟨j, r2⟩ := p
        rw [hf] at h
        simp at h
        obtain ⟨hij, hr2⟩ := h
        obtain ⟨hj, hget, huser⟩ := ih j r2 hf
        subst hij; subst hr2
        exact ⟨by simpa using Nat.succ_lt_succ hj, by simpa using hget, huser⟩

theorem mem_set_cases {α : Type} (l : List α) :
    ∀ (i : Nat) (c x : α), x ∈ l.set i c → x ∈ l ∨ x = c := by
  induction l with
  | nil => intro i c x h; simp at h
  | cons a rest ih =>
    intro i c x h
    cases i with
    | zero =>
      rcases List.mem_cons.mp h with rfl | hr
      · exact Or.inr rfl
      · exact Or.inl (List.mem_cons_of_mem _ hr)
    | succ n =>
      rcases List.mem_cons.mp h with rfl | hr
      · exact Or.inl (List.mem_cons_self _ _)
      · rcases ih n c x hr with hl | hc
        · exact Or.inl (List.mem_cons_of_mem _ hl)
        · exact Or.inr hc

theorem latestStep_usersNodup (acc : List Review) (review : Review)
    (h : acc.Pairwise fun a b => a.user ≠ b.user) :
    (latestStep acc review).Pairwise fun a b => a.user ≠ b.user := by
  unfold latestStep
  cases hf : findUser acc review.user with
  | none =>
    have hne := findUser_none acc review.user hf
    show (acc ++ [review]).Pairwise fun a b => a.user ≠ b.user
    refine List.pairwise_append.mpr ⟨h, by simp, ?_⟩
    intro a ha b hb
    rw [List.mem_singleton.mp hb]
    exact hne a ha
  | some p =>
    obtain ⟨i, last⟩ := p
    obtain ⟨hi, hget, huser⟩ := findUser_some acc review.user i last hf
    show List.Pairwise (fun a b => a.user ≠ b.user)
      (if last.submitted_at < review.submitted_at then acc.set i review else acc)
    by_cases hcmp : last.submitted_at < review.submitted_at
    · rw [if_pos hcmp]
      rw [List.pairwise_iff_getElem] at h ⊢
      intro x y hx hy hxy
      have hx2 : x < acc.length := by simpa using hx
      have hy2 : y < acc.length := by simpa using hy
      have hru : review.user = (acc.get ⟨i, hi⟩).user := by rw [hget]; exact huser.symm
      by_cases hxi : i = x
      · subst hxi
        rw [List.getElem_set_self hx, List.getElem_set_ne (by omega) hy, hru]
        simpa [List.get_eq_getElem] using h i y hx2 hy2 hxy
      · rw [List.getElem_set_ne hxi hx]
        by_cases hyi : i = y
        · subst hyi
          rw [List.getElem_set_self hy, hru]
          simpa [List.get_eq_getElem] using h x i hx2 hy2 hxy
        · rw [List.getElem_set_ne hyi hy]
          exact h x y hx2 hy2 hxy
    · rw [if_neg hcmp]
      exact h

theorem foldl_latestStep_usersNodup (rs : List Review) :
    ∀ acc : List Review, acc.Pairwise (fun a b => a.user ≠ b.user) →
    (rs.foldl latestStep acc).Pairwise fun a b => a.user ≠ b.user := by
  induction rs with
  | nil => intro acc h; exact h
  | cons a rest ih =>
    intro acc h
    exact ih (latestStep acc a) (latestStep_usersNodup acc a h)

theorem usersNodup_countP_le_one (me : Nat) (l : List Review)
    (h : l.Pairwise fun a b => a.user ≠ b.user) :
    l.countP (fun r => r.user = me) ≤ 1 := by
  induction l with
  | nil => simp
  | cons a rest ih =>
    obtain ⟨ha, hrest⟩ := List.pairwise_cons.mp h
    rw [List.countP_cons]
    by_cases hme : a.user = me
    · have hz : rest.countP (fun r => r.user = me) = 0 :=
        List.countP_eq_zero.mpr fun b hb => by
          simp only [decide_eq_true_eq]
          intro hbu
          exact ha b hb (hme.trans hbu.symm)
      simp [hz, hme]
    · have h0 : decide (a.user = me) = false := by simp [hme]
      simp [h0]
      exact ih hrest

theorem find?_eq_of_countP_le_one {α : Type} (p : α → Bool) (l : List α) (x : α)
    (hc : l.countP p ≤ 1) (hx : x ∈ l) (hpx : p x = true) :
    l.find? p = some x := by
  induction l with
  | nil => simp at hx
  | cons a rest ih =>
    by_cases hpa : p a = true
    · rw [List.find?_cons_of_pos rest hpa]
      rcases List.mem_cons.mp hx with rfl | hxr
      · rfl
      · exfalso
        have hpos : 0 < rest.countP p := List.countP_pos_iff.mpr ⟨x, hxr, hpx⟩
        rw [List.countP_cons, if_pos hpa] at hc
        omega
    · rw [List.find?_cons_of_neg rest hpa]
      rcases List.mem_cons.mp hx with rfl | hxr
      · exact absurd hpx hpa
      · refine ih ?_ hxr
        rw [List.countP_cons, if_neg hpa] at hc
        omega

theorem countP_le_one_unique {α : Type} (p : α → Bool) (l : List α)
    (hc : l.countP p ≤ 1) {x y : α} (hx : x ∈ l) (hpx : p x = true)
    (hy : y ∈ l) (hpy : p y = true) : x = y := by
  have h1 := find?_eq_of_countP_le_one p l x hc hx hpx
  have h2 := find?_eq_of_countP_le_one p l y hc hy hpy
  rw [h1] at h2
  exact Option.some.inj h2


theorem mem_set_self {α : Type} (l : List α) (i : Nat) (c : α) (h : i < l.length) :
    c ∈ l.set i c := by
  have hlen : i < (l.set i c).length := by simpa using h
  have hc : (l.set i c)[i] = c := List.getElem_set_self hlen
  have hm := List.getElem_mem hlen
  rwa [hc] at hm

theorem latestStep_bound (acc : List Review) (a : Review) (me bound : Nat)
    (hacc : ∀ r ∈ acc, r.user = me → r.submitted_at < bound)
    (ha : a.user = me → a.submitted_at < bound) :
    ∀ r ∈ latestStep acc a, r.user = me → r.submitted_at < bound := by
  intro r hr
  cases hf : findUser acc a.user with
  | none =>
    simp only [latestStep, hf] at hr
    rcases List.mem_append.mp hr with h1 | h2
    · exact hacc r h1
    · have : r = a := List.mem_singleton.mp h2
      subst this
      exact ha
  | some p =>
    obtain ⟨i, last⟩ := p
    simp only [latestStep, hf] at hr
    split at hr
    · rcases mem_set_cases acc i a r hr with h1 | h2
      · exact hacc r h1
      · subst h2
        exact ha
    · exact hacc r hr

theorem foldl_latestStep_bound (me bound : Nat) (rs : List Review) :
    ∀ acc : List Review,
    (∀ r ∈ acc, r.user = me → r.submitted_at < bound) →
    (∀ r ∈ rs, r.user = me → r.submitted_at < bound) →
    ∀ r ∈ rs.foldl latestStep acc, r.user = me → r.submitted_at < bound := by
  induction rs with
  | nil => intro acc hacc _; exact hacc
  | cons a rest ih =>
    intro acc hacc hrs
    exact ih (latestStep acc a)
      (latestStep_bound acc a me bound hacc (hrs a (List.mem_cons_self a rest)))
      (fun r hr => hrs r (List.mem_cons_of_mem a hr))

theorem foldl_latestStep_mem_closure (rs : List Review) :
    ∀ acc : List Review, ∀ r ∈ rs.foldl latestStep acc, r ∈ acc ∨ r ∈ rs := by
  induction rs with
  | nil => intro acc r hr; exact Or.inl hr
  | cons a rest ih =>
    intro acc r hr
    rcases ih (latestStep acc a) r hr with hin | hrest
    · cases hf : findUser acc a.user with
      | none =>
        simp only [latestStep, hf] at hin
        rcases List.mem_append.mp hin with h1 | h2
        · exact Or.inl h1
        · have : r = a := List.mem_singleton.mp h2
          subst this
          exact Or.inr (List.mem_cons_self r rest)
      | some p =>
        obtain ⟨i, last⟩ := p
        simp only [latestStep, hf] at hin
        split at hin
        · rcases mem_set_cases acc i a r hin with h1 | h2
          · exact Or.inl h1
          · subst h2
            exact Or.inr (List.mem_cons_self r rest)
        · exact Or.inl hin
    · exact Or.inr (List.mem_cons_of_mem a hrest)

theorem latestStep_user_exists (acc : List Review) (a : Review) (u : Nat)
    (h : (∃ r ∈ acc, r.user = u) ∨ a.user = u) :
    ∃ x ∈ latestStep acc a, x.user = u := by
  cases hf : findUser acc a.user with
  | none =>
    simp only [latestStep, hf]
    rcases h with ⟨r, hr, hru⟩ | hau
    · exact ⟨r, List.mem_append.mpr (Or.inl hr), hru⟩
    · exact ⟨a, List.mem_append.mpr (Or.inr (List.mem_singleton.mpr rfl)), hau⟩
  | some p =>
    obtain ⟨i, last⟩ := p
    obtain ⟨hi, hget, huser⟩ := findUser_some acc a.user i last hf
    have hgetE : acc[i] = last := by simpa [List.get_eq_getElem] using hget
    simp only [latestStep, hf]
    split
    · by_cases hau : a.user = u
      · exact ⟨a, mem_set_self acc i a hi, hau⟩
      · rcases h with ⟨r, hr, hru⟩ | hau2
        · obtain ⟨j, hj, hjr⟩ := List.mem_iff_getElem.mp hr
          have hji : j ≠ i := by
            intro hji
            subst hji
            rw [hjr] at hgetE
            subst hgetE
            exact hau (huser.symm ▸ hru)
          have hjlt : j < (acc.set i a).length := by simpa using hj
          have hsr : (acc.set i a)[j] = r := by
            rw [List.getElem_set_ne (Ne.symm hji) hjlt]
            exact hjr
          exact ⟨r, hsr ▸ List.getElem_mem hjlt, hru⟩
        · exact absurd hau2 hau
    · rcases h with ⟨r, hr, hru⟩ | hau
      · exact ⟨r, hr, hru⟩
      · refine ⟨last, ?_, by rw [huser, hau]⟩
        rw [← hget]
        exact List.get_mem acc i hi

theorem foldl_latestStep_user_exists (rs : List Review) :
    ∀ (acc : List Review) (u : Nat),
    ((∃ r ∈ acc, r.user = u) ∨ ∃ r ∈ rs, r.user = u) →
    ∃ x ∈ rs.foldl latestStep acc, x.user = u := by
  induction rs with
  | nil =>
    intro acc u h
    rcases h with h | ⟨r, hr, _⟩
    · exact h
    · simp at hr
  | cons a rest ih =>
    intro acc u h
    apply ih (latestStep acc a) u
    rcases h with hacc | ⟨r, hr, hru⟩
    · exact Or.inl (latestStep_user_exists acc a u (Or.inl hacc))
    · rcases List.mem_cons.mp hr with rfl | hrr
      · exact Or.inl (latestStep_user_exists acc r u (Or.inr hru))
      · exact Or.inr ⟨r, hrr, hru⟩

theorem mine_mem_latestStep (acc : List Review) (mine : Review)
    (hb : ∀ r ∈ acc, r.user = mine.user → r.submitted_at < mine.submitted_at) :
    mine ∈ latestStep acc mine := by
  cases hf : findUser acc mine.user with
  | none =>
    simp only [latestStep, hf]
    exact List.mem_append.mpr (Or.inr (List.mem_singleton.mpr rfl))
  | some p =>
    obtain ⟨i, last⟩ := p
    obtain ⟨hi, hget, huser⟩ := findUser_some acc mine.user i last hf
    have hlt : last.submitted_at < mine.submitted_at :=
      hb last (by rw [← hget]; exact List.get_mem acc i hi) huser
    simp only [latestStep, hf]
    rw [if_pos hlt]
    exact mem_set_self acc i mine hi


theorem approvedByMeOf_after_submit (me now L : Nat) (rs : List Review)
    (hL : L ≤ now)
    (hm : ∀ r ∈ rs, r.user = me → r.submitted_at < now) :
    approvedByMeOf me L (rs ++ [⟨me, RState.approved, now, false⟩]) = Tri.yes := by
  set mine : Review := ⟨me, RState.approved, now, false⟩ with hmine
  have hfold : (rs ++ [mine]).foldl latestStep [] =
      latestStep (rs.foldl latestStep []) mine := by
    rw [List.foldl_append]
    rfl
  set acc := rs.foldl latestStep [] with hacc
  have hnodup : acc.Pairwise fun a b => a.user ≠ b.user :=
    foldl_latestStep_usersNodup rs [] (by simp)
  have hbound : ∀ r ∈ acc, r.user = me → r.submitted_at < now :=
    foldl_latestStep_bound me now rs [] (by simp) hm
  have hmem1 : mine ∈ latestStep acc mine :=
    mine_mem_latestStep acc mine hbound
  have hnodup1 : (latestStep acc mine).Pairwise fun a b => a.user ≠ b.user :=
    latestStep_usersNodup acc mine hnodup
  have hL1 : latestReviews (rs ++ [mine]) =
      (latestStep acc mine).mergeSort
        (fun a b => a.submitted_at ≤ b.submitted_at) := by
    rw [latestReviews, hfold]
  have hperm1 : (latestReviews (rs ++ [mine])).Perm (latestStep acc mine) := by
    rw [hL1]
    exact List.mergeSort_perm _ _
  have hmemS : mine ∈ latestReviews (rs ++ [mine]) := hperm1.mem_iff.mpr hmem1
  have hcount1 :
      (latestReviews (rs ++ [mine])).countP (fun r => r.user = me) ≤ 1 := by
    rw [hperm1.countP_eq]
    exact usersNodup_countP_le_one me _ hnodup1
  set ann := (latestReviews (rs ++ [mine])).map (annotateOutdated L) with hann
  have hannMine : annotateOutdated L mine = mine := by
    simp only [annotateOutdated, hmine, Review.mk.injEq, true_and]
    simp only [decide_eq_false_iff_not]
    omega
  have hmemAnn : mine ∈ ann := by
    rw [hann]
    exact List.mem_map.mpr ⟨mine, hmemS, hannMine⟩
  have hcountAnn : ann.countP (fun r => r.user = me) ≤ 1 := by
    rw [hann, List.countP_map]
    have hcomp : ((fun r => decide (r.user = me)) ∘ annotateOutdated L) =
        fun r : Review => decide (r.user = me) := by
      funext r
      simp [annotateOutdated]
    rw [hcomp]
    exact hcount1
  have hnodup2 : (ann.foldl latestStep []).Pairwise fun a b => a.user ≠ b.user :=
    foldl_latestStep_usersNodup ann [] (by simp)
  obtain ⟨e, he, heu⟩ :=
    foldl_latestStep_user_exists ann [] me (Or.inr ⟨mine, hmemAnn, rfl⟩)
  have heAnn : e ∈ ann := by
    rcases foldl_latestStep_mem_closure ann [] e he with h0 | h1
    · simp at h0
    · exact h1
  have he_eq : e = mine :=
    countP_le_one_unique (fun r => r.user = me) ann hcountAnn heAnn
      (by simp [heu]) hmemAnn (by simp [hmine])
  have hperm2 : (latestReviews ann).Perm (ann.foldl latestStep []) := by
    rw [latestReviews]
    exact List.mergeSort_perm _ _
  have hmem2 : mine ∈ latestReviews ann := hperm2.mem_iff.mpr (he_eq ▸ he)
  have hcount2 : (latestReviews ann).countP (fun r => r.user = me) ≤ 1 := by
    rw [hperm2.countP_eq]
    exact usersNodup_countP_le_one me _ hnodup2
  have hfind : (latestReviews ann).find? (fun r => r.user = me) = some mine :=
    find?_eq_of_countP_le_one _ _ mine hcount2 hmem2 (by simp [hmine])
  unfold approvedByMeOf getMyReview
  rw [← hann, hfind]
  simp [hmine]

/-- C10: `approvePull` first re-fetches the pull and performs no mutation
when the re-fetch errors or the refreshed pull already shows a current
non-outdated operator approval (`approvedByMe === true`); consequently two
successive calls on the same pull submit at most one approving review
(under the faithful time model: the new review is submitted no earlier than
the latest commit and strictly later than the operator's previous
reviews). -/
theorem approvePull_no_duplicate (me now1 now2 : Nat) (r : Remote)
    (hc : r.lastCommitAt ≤ now1)
    (hm : ∀ v ∈ r.reviews, v.user = me → v.submitted_at < now1) :
    (r.fetchFails = true → approvePull me now1 r = (r, 0))
  ∧ (approvedByMeOf me r.lastCommitAt r.reviews = Tri.yes →
      approvePull me now1 r = (r, 0))
  ∧ (approvePull me now1 r).2 +
      (approvePull me now2 (approvePull me now1 r).1).2 ≤ 1 := by
  have hsnd : ∀ (n : Nat) (q : Remote), (approvePull me n q).2 ≤ 1 := by
    intro n q
    unfold approvePull
    split_ifs <;> simp
  refine ⟨?_, ?_, ?_⟩
  · intro h
    unfold approvePull
    rw [if_pos h]
  · intro h
    unfold approvePull
    by_cases hf : r.fetchFails = true
    · rw [if_pos hf]
    · rw [if_neg hf, if_pos h]
  · by_cases hf : r.fetchFails = true
    · have h1 : approvePull me now1 r = (r, 0) := by
        unfold approvePull
        rw [if_pos hf]
      rw [h1]
      simpa using hsnd now2 r
    · by_cases ha : approvedByMeOf me r.lastCommitAt r.reviews = Tri.yes
      · have h1 : approvePull me now1 r = (r, 0) := by
          unfold approvePull
          rw [if_neg hf, if_pos ha]
        rw [h1]
        simpa using hsnd now2 r
      · by_cases hd : r.draftFails = true
        · have h1 : approvePull me now1 r = (r, 0) := by
            unfold approvePull
            rw [if_neg hf, if_neg ha, if_pos hd]
          rw [h1]
          simpa using hsnd now2 r
        · have h1 : approvePull me now1 r =
              ({ r with reviews :=
                  r.reviews ++ [⟨me, RState.approved, now1, false⟩] }, 1) := by
            unfold approvePull
            rw [if_neg hf, if_neg ha, if_neg hd]
          have h2 : approvedByMeOf me r.lastCommitAt
              (r.reviews ++ [⟨me, RState.approved, now1, false⟩]) = Tri.yes :=
            approvedByMeOf_after_submit me now1 r.lastCommitAt r.reviews hc hm
          have h3 : approvePull me now2
              { r with reviews :=
                  r.reviews ++ [⟨me, RState.approved, now1, false⟩] } =
              ({ r with reviews :=
                  r.reviews ++ [⟨me, RState.approved, now1, false⟩] }, 0) := by
            unfold approvePull
            dsimp only
            rw [if_neg hf, if_pos h2]
          rw [h1]
          dsimp only
          rw [h3]
          simp

/-- Witness for C10 at a concrete remote with no prior reviews: two
successive `approvePull` calls submit one review in total. -/
theorem approvePull_no_duplicate_witness :
    (approvePull 7 100 ⟨[], 50, false, false⟩).2 +
      (approvePull 7 101 (approvePull 7 100 ⟨[], 50, false, false⟩).1).2 ≤ 1 := by
  exact (approvePull_no_duplicate 7 100 101 ⟨[], 50, false, false⟩ (by decide)
      (by intro v hv; simp at hv)).2.2


end FocusDT
